import Mathlib

/-!
Anti-keylogger control harness: config store, daemon loop, CLI

A shallow embedding of the C++ sources

* `workbench/antivirus/src_cpp/antivirus_controller.cpp` (namespace `AntivirusController`)
* `workbench/antivirus/src_cpp/model_runner.cpp` (namespace `ModelRunner`)
* `workbench/antivirus/src_cpp/main.cpp` (namespace `Cli`)
* `tools/antivirus_daemon.cpp` (namespace `Daemon`)
* `tools/ARCHIVE_tools/antivirus_control.cpp` (namespace `Control`)

`std::string` is a list of characters, `std::string::npos` is `none`, an
uncaught C++ exception (of `std::string`, `std::stoi` or `std::filesystem`)
is `Except.error`, and the clock, the file system, the signal flag and the
exit codes of child processes are explicit inputs.
-/

namespace AntiKeylogger

/-- A `std::string`: the sequence of its `char`s. -/
abbrev Str := List Char

/-- The exceptions of the standard library that the sources can raise. -/
inductive Exc where
  | out_of_range
  | invalid_argument
  | filesystem_error
  deriving DecidableEq, Repr

deriving instance DecidableEq for Except

/-! ## `std::string` primitives -/

/-- Leftmost match of `pat` in `s`, the head of `s` having index `i`. -/
def findAux (pat : Str) : Str → Nat → Option Nat
  | [], i => if pat.isPrefixOf [] then some i else none
  | c :: cs, i => if pat.isPrefixOf (c :: cs) then some i else findAux pat cs (i + 1)

/-- `s.find(pat, pos)`: the least index `i ≥ pos` at which `pat` occurs in
`s`, `none` for `npos`. -/
def find (s pat : Str) (pos : Nat) : Option Nat :=
  if pos ≤ s.length then findAux pat (s.drop pos) pos else none

/-- `s.find(c, pos)` for a single character. -/
def find_char (s : Str) (c : Char) (pos : Nat) : Option Nat :=
  find s [c] pos

/-- Rightmost match of `pat` in `s` at an index `≤ k`. -/
def rfindAux (s pat : Str) : Nat → Option Nat
  | 0 => if pat.isPrefixOf s then some 0 else none
  | k + 1 => if pat.isPrefixOf (s.drop (k + 1)) then some (k + 1) else rfindAux s pat k

/-- `s.rfind(pat, pos)`: the greatest index `i ≤ pos` at which `pat` occurs in
`s`, `none` for `npos`. -/
def rfind (s pat : Str) (pos : Nat) : Option Nat :=
  rfindAux s pat (min pos s.length)

/-- `s.substr(pos)`: throws `std::out_of_range` when `pos > s.size()`. -/
def substr (s : Str) (pos : Nat) : Except Exc Str :=
  if pos ≤ s.length then .ok (s.drop pos) else .error .out_of_range

/-- `s.substr(pos, n)` for `pos ≤ s.size()`. -/
def substr_n (s : Str) (pos n : Nat) : Str :=
  (s.drop pos).take n

/-- `a < b` on `size_t` positions, `none` being `npos`, the largest value. -/
def pos_lt : Option Nat → Option Nat → Bool
  | some a, some b => decide (a < b)
  | some _, none => true
  | none, _ => false

/-! ## The config file as the programs see it -/

/-- What a process finds at `config/antivirus_config.json`. -/
inductive FileState where
  /-- There is no such file. -/
  | absent
  /-- The file is there and `std::ifstream` cannot open it. -/
  | unreadable
  /-- The file is there and `std::ifstream` reads these bytes. -/
  | content (bytes : Str)
  /-- The status of the path cannot be determined (for instance `config` may
  not be searched): `fs::exists` throws. -/
  | inaccessible
  deriving DecidableEq, Repr

/-- `fs::exists(path)`, the overload that throws `fs::filesystem_error`. -/
def FileState.exists_ : FileState → Except Exc Bool
  | .absent => .ok false
  | .unreadable => .ok true
  | .content _ => .ok true
  | .inaccessible => .error .filesystem_error

/-- `std::ifstream ifs(path)`: the bytes it reads, `none` when `!ifs`. -/
def FileState.ifstream : FileState → Option Str
  | .content c => some c
  | _ => none

/-- The file system around a write of the config file: the answer of
`fs::exists` for the parent directory, whether `fs::create_directories`
succeeds on it, and whether `std::ofstream(path, std::ios::trunc)` opens. -/
structure Disk where
  parent_exists : Except Exc Bool
  can_create : Bool
  can_write : Bool
  deriving DecidableEq, Repr

/-! ## `antivirus_controller.cpp` -/

namespace AntivirusController

/-- The scan of `is_enabled` over the bytes read from the file (lines 33-41).
`content.substr(colon + 1)` cannot throw: `colon` is an index of `content`. -/
def is_enabled_content (content : Str) : Bool :=
  match find content "\"enabled\"".toList 0 with
  | none => false
  | some pos =>
    match find_char content ':' pos with
    | none => false
    | some colon =>
      let sub := content.drop (colon + 1)
      let tpos := find sub "true".toList 0
      let fpos := find sub "false".toList 0
      if tpos.isSome && (fpos.isNone || pos_lt tpos fpos) then true else false

/-- `AntivirusController::is_enabled()` (lines 28-42): the value returned, or
the exception of `fs::exists` that leaves it. -/
def is_enabled (cfg : FileState) : Except Exc Bool :=
  match cfg.exists_ with
  | .error e => .error e
  | .ok ex =>
    if !ex then .ok false
    else
      match cfg.ifstream with
      | none => .ok false
      | some content => .ok (is_enabled_content content)

/-- The bytes `AntivirusController::enable(notes)` streams into the truncated
file, `ts` being the value of `now_iso_z()`. -/
def enable (ts notes : Str) : Str :=
  "\x7b\n".toList ++ "  \"enabled\": true,\n".toList
    ++ ("  \"last_changed\": \"".toList ++ ts ++ "\",\n".toList)
    ++ ("  \"notes\": \"".toList ++ notes ++ "\"\n".toList)
    ++ "\x7d\n".toList

/-- The bytes `AntivirusController::disable(notes)` streams into the truncated
file. -/
def disable (ts notes : Str) : Str :=
  "\x7b\n".toList ++ "  \"enabled\": false,\n".toList
    ++ ("  \"last_changed\": \"".toList ++ ts ++ "\",\n".toList)
    ++ ("  \"notes\": \"".toList ++ notes ++ "\"\n".toList)
    ++ "\x7d\n".toList

/-- Lines 45-46 (and 55-56) followed by the streaming of `bytes`: the config
file afterwards, or the exception that leaves the function. The stream is
never tested, so when it does not open the file stays as it was. -/
def write_file (d : Disk) (bytes : Str) (cfg : FileState) : Except Exc FileState :=
  match d.parent_exists with
  | .error e => .error e
  | .ok ex =>
    if !ex && !d.can_create then .error .filesystem_error
    else if d.can_write then .ok (.content bytes)
    else .ok cfg

end AntivirusController

/-! ## `antivirus_control.cpp` (archived control tool) -/

namespace Control

/-- The loop of `write_config` that builds `esc_notes`. -/
def esc_notes : Str → Str
  | [] => []
  | c :: cs =>
    (if c = '"' then "\\\"".toList else if c = '\\' then "\\\\".toList else [c]) ++ esc_notes cs

/-- The bytes `write_config(enabled, notes)` streams into the truncated file. -/
def write_config (enabled : Bool) (ts notes : Str) : Str :=
  "\x7b\n".toList
    ++ ("  \"enabled\": ".toList ++ (if enabled then "true".toList else "false".toList)
        ++ ",\n".toList)
    ++ ("  \"last_changed\": \"".toList ++ ts ++ "\",\n".toList)
    ++ ("  \"notes\": \"".toList ++ esc_notes notes ++ "\"\n".toList)
    ++ "\x7d\n".toList

/-- `parse_enabled(s, out_enabled)`: `some b` when it returns `true` having
set `out_enabled = b`, `none` when it returns `false` and leaves it alone. -/
def parse_enabled (s : Str) : Option Bool :=
  match find s "\"enabled\"".toList 0 with
  | none => none
  | some pos =>
    match find_char s ':' pos with
    | none => none
    | some colon =>
      let sub := s.drop (colon + 1)
      let tpos := find sub "true".toList 0
      let fpos := find sub "false".toList 0
      if tpos.isSome && (fpos.isNone || pos_lt tpos fpos) then some true
      else if fpos.isSome then some false
      else none

/-- `extract_field(s, field, out)`: `some out` when it returns `true`. -/
def extract_field (s field : Str) : Option Str :=
  match find s ('"' :: field ++ ['"']) 0 with
  | none => none
  | some pos =>
    match find_char s ':' pos with
    | none => none
    | some colon =>
      match find_char s '"' colon with
      | none => none
      | some quote =>
        match find_char s '"' (quote + 1) with
        | none => none
        | some endq => some (substr_n s (quote + 1) (endq - quote - 1))

end Control

/-! ## `antivirus_daemon.cpp` -/

namespace Daemon

/-- `read_file(p)`: the bytes of the file, the empty string when it cannot be
opened. -/
def read_file (p : FileState) : Str :=
  match p.ifstream with
  | none => []
  | some c => c

/-- `parse_enabled(s, out_enabled)`: `some b` when it returns `true` having
set `out_enabled = b`, `none` when it returns `false` and leaves it alone. -/
def parse_enabled (s : Str) : Option Bool :=
  match find s "\"enabled\"".toList 0 with
  | none => none
  | some pos =>
    match find_char s ':' pos with
    | none => none
    | some colon =>
      let sub := s.drop (colon + 1)
      let tpos := find sub "true".toList 0
      let fpos := find sub "false".toList 0
      if tpos.isSome && (fpos.isNone || pos_lt tpos fpos) then some true
      else if fpos.isSome then some false
      else none

/-- The config poll at the head of a loop iteration (lines 79-84): the value
of the local `enabled` once the file has been looked at, or the exception of
`fs::exists` that leaves the loop. -/
def poll_enabled (cfg : FileState) : Except Exc Bool :=
  let enabled := false
  match cfg.exists_ with
  | .error e => .error e
  | .ok ex =>
    if ex then
      match parse_enabled (read_file cfg) with
      | some b => .ok b
      | none => .ok enabled
    else .ok enabled

/-- `isspace` in the "C" locale. -/
def isspace (c : Char) : Bool :=
  c == ' ' || c == '\t' || c == '\n' || c == '\x0b' || c == '\x0c' || c == '\r'

/-- The value of a run of decimal digits, most significant first. -/
def digits_value (ds : Str) : Nat :=
  ds.foldl (fun acc d => acc * 10 + (d.toNat - 48)) 0

/-- `std::stoi(s)`: `strtol` in base 10 skips leading white space, takes an
optional sign and the longest run of digits, and ignores what follows;
`std::invalid_argument` when there is no digit, `std::out_of_range` when the
value is no `int`. -/
def stoi (s : Str) : Except Exc Int :=
  let s1 := s.dropWhile isspace
  let neg := decide (s1.head? = some '-')
  let s2 := if s1.head? = some '-' ∨ s1.head? = some '+' then s1.tail else s1
  let ds := s2.takeWhile Char.isDigit
  if ds = [] then .error .invalid_argument
  else
    let v : Int := if neg then -(digits_value ds : Int) else (digits_value ds : Int)
    if v < -2147483648 ∨ 2147483647 < v then .error .out_of_range else .ok v

/-- The locals of `main` that the arguments can set (lines 50-54). `logp` is
the `fs::path` built from `log_file` before the arguments are read. -/
structure Settings where
  model : Str
  input : Str
  interval : Int
  log_file : Str
  logp : Str
  deriving DecidableEq, Repr

/-- The defaults of lines 50-54. -/
def defaults : Settings :=
  ⟨"backup/modelo/modelo_keylogger_from_datos.onnx".toList,
   "DATOS/Keylogger_Detection_Dataset.csv".toList,
   10,
   "logs/antivirus_daemon.log".toList,
   "logs/antivirus_daemon.log".toList⟩

/-- The argument loop of lines 57-63 over `argv[i], argv[i+1], ...`. An option
in the last position has no value (`i + 1 < argc` fails) and is skipped. -/
def parse_args : List Str → Settings → Except Exc Settings
  | [], st => .ok st
  | [_], st => .ok st
  | a :: v :: rest, st =>
    if a = "--model".toList then
      parse_args rest ⟨v, st.input, st.interval, st.log_file, st.logp⟩
    else if a = "--input".toList then
      parse_args rest ⟨st.model, v, st.interval, st.log_file, st.logp⟩
    else if a = "--interval".toList then
      match stoi v with
      | .error e => .error e
      | .ok k => parse_args rest ⟨st.model, st.input, k, st.log_file, st.logp⟩
    else if a = "--log".toList then
      parse_args rest ⟨st.model, st.input, st.interval, v, st.logp⟩
    else parse_args (v :: rest) st

/-- The lines the daemon writes to its log stream. -/
inductive LogLine where
  | start
  | running
  | exit_code (ret : Int)
  | idle
  | stopping
  deriving DecidableEq, Repr

/-- An `int` as `operator<<` prints it. -/
def int_text : Int → Str
  | .ofNat n => Nat.toDigits 10 n
  | .negSucc n => '-' :: Nat.toDigits 10 (n + 1)

/-- The bytes of a log line. -/
def LogLine.text : LogLine → Str
  | .start => "[daemon] start\n".toList
  | .running => "[daemon] enabled -> running inference\n".toList
  | .exit_code ret => "[daemon] inference exit code: ".toList ++ int_text ret ++ "\n".toList
  | .idle => "[daemon] disabled -> idle\n".toList
  | .stopping => "[daemon] stopping\n".toList

/-- What the daemon does to the outside world, in order. -/
inductive Event where
  /-- `fs::create_directories(p.parent_path())`. -/
  | create_parent_directories (p : Str)
  /-- `std::ofstream log(p, std::ios::app)` opened. -/
  | open_append (p : Str)
  /-- A line written to `std::cerr`. -/
  | cerr (s : Str)
  /-- A line written to the log stream and flushed. -/
  | log (l : LogLine)
  /-- `std::system(cmd)`. -/
  | system (cmd : Str)
  /-- The loop `for (i = 0; i < n && keep_running; ++i) sleep_for(1s)` with
  bound `n`: `n` one-second slices unless a signal cuts it short. -/
  | wait_slices (n : Nat)
  deriving DecidableEq, Repr

/-- One pass of the loop body as the outside world feeds it: the config file
found by the poll and the value `std::system` returns if it is called. -/
structure Poll where
  cfg : FileState
  ret : Int
  deriving DecidableEq, Repr

/-- The world around one run of the daemon. `polls` are the passes of the
`while (keep_running)` loop made before the flag is found false. -/
structure World where
  /-- `fs::exists(fs::path(p).parent_path())` when `main` starts. -/
  parent_exists : Str → Except Exc Bool
  /-- Whether `fs::create_directories(fs::path(p).parent_path())` succeeds. -/
  can_create : Str → Bool
  /-- Whether `std::ofstream(p, std::ios::app)` opens. -/
  can_open : Str → Bool
  polls : List Poll

/-- The command of line 93. -/
def inference_cmd (st : Settings) : Str :=
  "python scripts/predecir_keylogger.py --onnx \"".toList ++ st.model
    ++ "\" --input \"".toList ++ st.input ++ "\" >> \"".toList ++ st.logp
    ++ "\" 2>&1".toList

/-- The body of the `while` loop (lines 79-109): the events of one pass and
the new value of `last_enabled`, or the exception that leaves the loop. -/
def iteration (st : Settings) (last_enabled : Bool) (p : Poll) :
    Except Exc (List Event × Bool) :=
  match poll_enabled p.cfg with
  | .error e => .error e
  | .ok enabled =>
    if enabled then
      .ok ([.log .running, .system (inference_cmd st), .log (.exit_code p.ret),
        .wait_slices st.interval.toNat], enabled)
    else
      .ok ((if last_enabled != enabled then [.log .idle] else []) ++ [.wait_slices 2], enabled)

/-- The events of the passes of the loop, pass by pass, and the exception
that ended the loop if one did. -/
def iterations (st : Settings) : Bool → List Poll → List (List Event) × Option Exc
  | _, [] => ([], none)
  | last_enabled, p :: ps =>
    match iteration st last_enabled p with
    | .error e => ([], some e)
    | .ok (evs, enabled) => (evs :: (iterations st enabled ps).1, (iterations st enabled ps).2)

/-- The `while (keep_running)` loop, `last_enabled` being its state: its
events and the exception that ended it if one did. -/
def loop (st : Settings) (last_enabled : Bool) (polls : List Poll) : List Event × Option Exc :=
  ((iterations st last_enabled polls).1.flatten, (iterations st last_enabled polls).2)

/-- A run of the daemon: its events, and the exit code `main` returns or the
exception that leaves `main`. -/
structure Run where
  events : List Event
  result : Except Exc Int
  deriving DecidableEq, Repr

/-- The part of `main` after the argument loop (lines 65-114). -/
def main_body (st : Settings) (w : World) : Run :=
  match w.parent_exists st.logp with
  | .error e => ⟨[], .error e⟩
  | .ok ex =>
    if !ex && !w.can_create st.logp then ⟨[], .error .filesystem_error⟩
    else
      let mk := if ex then [] else [Event.create_parent_directories st.logp]
      if w.can_open st.logp then
        match (loop st false w.polls).2 with
        | none =>
          ⟨mk ++ [.open_append st.logp, .log .start] ++ (loop st false w.polls).1
            ++ [.log .stopping], .ok 0⟩
        | some e =>
          ⟨mk ++ [.open_append st.logp, .log .start] ++ (loop st false w.polls).1, .error e⟩
      else
        ⟨mk ++ [.cerr ("No se pudo abrir el archivo de log: ".toList ++ st.logp
          ++ "\n".toList)], .ok 1⟩

/-- `main(argc, argv)`. -/
def main (argv : List Str) (w : World) : Run :=
  match parse_args argv.tail defaults with
  | .error e => ⟨[], .error e⟩
  | .ok st => main_body st w

/-- The values the polls of a run give to the local `enabled`. -/
def reads (polls : List Poll) : List (Except Exc Bool) :=
  polls.map (fun p => poll_enabled p.cfg)

/-- Between two idle lines of `l` there is a running line. -/
def idle_separated (l : List Event) : Prop :=
  ∀ a b c, l = a ++ Event.log .idle :: (b ++ Event.log .idle :: c) → Event.log .running ∈ b

/-- Before an idle line of `l` there is a running line. -/
def idle_preceded (l : List Event) : Prop :=
  ∀ a c, l = a ++ Event.log .idle :: c → Event.log .running ∈ a

end Daemon

/-! ## `model_runner.cpp` -/

namespace ModelRunner

/-- A `std::filesystem::path` in generic format: whether it has a root
directory, and the file names that follow. `/` is `⟨true, []⟩`, `/a/b` is
`⟨true, [a, b]⟩`, `a/b` is `⟨false, [a, b]⟩`, the empty path is `⟨false, []⟩`. -/
structure Path where
  root : Bool
  names : List Str
  deriving DecidableEq, Repr

/-- `p.empty()`. -/
def Path.empty (p : Path) : Bool :=
  !p.root && p.names.isEmpty

/-- `p.has_relative_path()`. -/
def Path.has_relative_path (p : Path) : Bool :=
  !p.names.isEmpty

/-- `p.parent_path()`: a copy of `p` when `p` has no relative path (so the
parent of `/` is `/`), else `p` without its last element. -/
def Path.parent_path (p : Path) : Path :=
  if p.has_relative_path then ⟨p.root, p.names.dropLast⟩ else p

/-- `p.has_parent_path()`: whether `p.parent_path()` is not empty. -/
def Path.has_parent_path (p : Path) : Bool :=
  !p.parent_path.empty

/-- `p / name` for a single file name. -/
def Path.slash (p : Path) (name : Str) : Path :=
  ⟨p.root, p.names ++ [name]⟩

/-- `repo / "scripts" / "predecir_keylogger.py"`. -/
def script_of (repo : Path) : Path :=
  (repo.slash "scripts".toList).slash "predecir_keylogger.py".toList

/-- The state of the walk of lines 17-21 after one more pass of its body. -/
inductive Walk where
  | broke (repo : Path) (found : Bool)
  | again (repo : Path)
  | threw (e : Exc)
  deriving DecidableEq, Repr

/-- One pass of the body of `while (true)` (lines 18-20), `fs_exists` being
`fs::exists` (the overload that throws) on the file system of the run. -/
def walk_step (fs_exists : Path → Except Exc Bool) (repo : Path) : Walk :=
  match fs_exists (script_of repo) with
  | .error e => .threw e
  | .ok ex =>
    if ex then .broke repo true
    else if !repo.has_parent_path then .broke repo false
    else .again repo.parent_path

/-- The loop of lines 17-21 run for at most `fuel` passes: `some` of `(repo,
found)`, or of the exception that left it, when it has left the loop by
then, `none` when it is still going. -/
def walk (fs_exists : Path → Except Exc Bool) : Nat → Path → Option (Except Exc (Path × Bool))
  | 0, _ => none
  | fuel + 1, repo =>
    match walk_step fs_exists repo with
    | .broke r found => some (.ok (r, found))
    | .threw e => some (.error e)
    | .again next => walk fs_exists fuel next

/-- Lines 14-25 of `ModelRunner::run`: the repository root it settles on,
`none` when the walk has not ended within `fuel` passes. -/
def discover_repo (fs_exists : Path → Except Exc Bool) (fuel : Nat) (cwd : Path) :
    Option (Except Exc Path) :=
  match walk fs_exists fuel cwd with
  | none => none
  | some (.error e) => some (.error e)
  | some (.ok (repo, found)) => some (.ok (if !found then cwd else repo))

end ModelRunner

/-! ## `main.cpp` (interactive loop) -/

namespace Cli

/-- What the interactive loop does to the outside world. -/
inductive Out where
  /-- Bytes written to `std::cout`. -/
  | cout (s : Str)
  /-- `ModelRunner mr(model, input); mr.run();`. -/
  | run_model (model input : Str)
  deriving DecidableEq, Repr

/-- The words `operator>>` extracts from a line. -/
def words (line : Str) : List Str :=
  (line.splitOnP Daemon.isspace).filter (fun w => !w.isEmpty)

/-- The text printed for `help` (line 52). -/
def help_text : Str :=
  ("Commands:\n  run [model] [input]  - run one inference\n  status - show enabled/disabled\n"
    ++ "  enable [notes] - enable\n  disable [notes] - disable\n  exit - quit\n").toList

/-- The outcome of one pass of the interactive loop after a line was read. -/
structure Pass where
  cfg : FileState
  out : List Out
  again : Bool
  deriving DecidableEq, Repr

/-- One pass of the loop of lines 46-69 once `std::getline` has read `line`:
`cfg` is the config file before the pass, `d` the file system around its
writes and `ts` the value `now_iso_z()` has during it. `Except.error` is an
exception leaving the loop (and `main`). -/
def interactive_line (d : Disk) (ts : Str) (cfg : FileState) (line : Str) : Except Exc Pass :=
  if line = "quit".toList ∨ line = "exit".toList then .ok ⟨cfg, [], false⟩
  else if line = "help".toList then .ok ⟨cfg, [.cout help_text], true⟩
  else if rfind line "run".toList 0 = some 0 then
    let model := (words line).getD 1 []
    let input := (words line).getD 2 []
    let model := if model.isEmpty then "backup/modelo/modelo_keylogger_from_datos.onnx".toList
      else model
    let input := if input.isEmpty then "DATOS/Keylogger_Detection_Dataset.csv".toList else input
    .ok ⟨cfg, [.run_model model input], true⟩
  else if line = "status".toList then
    match AntivirusController.is_enabled cfg with
    | .error e => .error e
    | .ok b =>
      .ok ⟨cfg, [.cout ((if b then "enabled".toList else "disabled".toList) ++ "\n".toList)],
        true⟩
  else if rfind line "enable".toList 0 = some 0 then
    match substr line 7 with
    | .error e => .error e
    | .ok notes =>
      match AntivirusController.write_file d (AntivirusController.enable ts notes) cfg with
      | .error e => .error e
      | .ok cfg2 => .ok ⟨cfg2, [.cout "enabled\n".toList], true⟩
  else if rfind line "disable".toList 0 = some 0 then
    match substr line 8 with
    | .error e => .error e
    | .ok notes =>
      match AntivirusController.write_file d (AntivirusController.disable ts notes) cfg with
      | .error e => .error e
      | .ok cfg2 => .ok ⟨cfg2, [.cout "disabled\n".toList], true⟩
  else .ok ⟨cfg, [.cout "Unknown command (type 'help').\n".toList], true⟩

/-- The loop of lines 46-69 over the lines `std::getline` reads before the
end of input, each with the value of the clock during its pass: the final
config file and everything written, or the exception that leaves `main`. -/
def interactive (d : Disk) : FileState → List (Str × Str) → Except Exc (FileState × List Out)
  | cfg, [] => .ok (cfg, [.cout "> ".toList])
  | cfg, (line, ts) :: rest =>
    match interactive_line d ts cfg line with
    | .error e => .error e
    | .ok pass =>
      if pass.again then
        match interactive d pass.cfg rest with
        | .error e => .error e
        | .ok (cfg2, out) => .ok (cfg2, .cout "> ".toList :: pass.out ++ out)
      else .ok (pass.cfg, .cout "> ".toList :: pass.out)

end Cli

/-! ## Auxiliary definitions for the proofs -/

/-- The bytes both writers put before the value of `enabled`, with `true`. -/
def head_true : Str := "\x7b\n  \"enabled\": true".toList

/-- The bytes both writers put before the value of `enabled`, with `false`. -/
def head_false : Str := "\x7b\n  \"enabled\": false".toList

/-- The characters `std::put_time` can emit for the format
`"%Y-%m-%dT%H:%M:%SZ"` of `now_iso_z()`: decimal digits and the literal
characters of the format. -/
def iso_z_char (c : Char) : Bool :=
  c.isDigit || c == '-' || c == 'T' || c == ':' || c == 'Z'

/-- The bytes `write_config` puts before the timestamp. -/
def cfg_head (enabled : Bool) : Str :=
  if enabled then "\x7b\n  \"enabled\": true,\n  \"last_changed\": \"".toList
  else "\x7b\n  \"enabled\": false,\n  \"last_changed\": \"".toList

/-- The field name `"notes"` with its quotes, as `extract_field` looks for it. -/
def notes_key : Str := '"' :: "notes".toList ++ ['"']

/-- A config file as `enable` writes it, for the examples. -/
def cfg_on : FileState :=
  .content (AntivirusController.enable "2025-01-01T00:00:00Z".toList [])

/-- A world for the examples: no `logs` directory yet, every file can be
opened, and one pass of the loop finds the config enabled and the inference
exits with 0. -/
def world_one_enabled_pass : Daemon.World :=
  ⟨fun _ => .ok false, fun _ => true, fun _ => true, [⟨cfg_on, 0⟩]⟩

/-- A disk on which the `config` directory exists and the file can be
written. -/
def disk_ok : Disk :=
  ⟨.ok true, true, true⟩

/-- A disk on which the `config` directory exists and the file cannot be
opened for writing. -/
def disk_read_only : Disk :=
  ⟨.ok true, true, false⟩

namespace Daemon

end Daemon

namespace ModelRunner

/-- The `k`-th ancestor of `p`: `parent_path` taken `k` times. -/
def ancestor : Nat → Path → Path
  | 0, p => p
  | k + 1, p => ancestor k p.parent_path

end ModelRunner

/-! ## Facts about `find` -/

theorem isPrefixOf_iff (p s : Str) : p.isPrefixOf s = true ↔ p <+: s :=
  List.isPrefixOf_iff_prefix

theorem findAux_ge {pat s : Str} {i j : Nat} (h : findAux pat s i = some j) : i ≤ j := by
  induction s generalizing i with
  | nil =>
    simp only [findAux] at h
    split at h <;> simp_all
  | cons c cs ih =>
    simp only [findAux] at h
    split at h
    · simp_all
    · have := ih h
      omega

/-- A match found by `findAux` lies inside the searched string. -/
theorem findAux_fits {pat s : Str} {i j : Nat} (h : findAux pat s i = some j) :
    (j - i) + pat.length ≤ s.length := by
  induction s generalizing i with
  | nil =>
    simp only [findAux] at h
    split at h
    · rename_i hp
      have := (isPrefixOf_iff _ _).1 hp
      have := this.length_le
      simp_all
    · simp at h
  | cons c cs ih =>
    simp only [findAux] at h
    split at h
    · rename_i hp
      have := ((isPrefixOf_iff _ _).1 hp).length_le
      simp only [Option.some.injEq] at h
      subst h
      simpa using this
    · have h1 := ih h
      have h2 := findAux_ge h
      simp only [List.length_cons]
      omega

theorem findAux_append {pat s : Str} {i j : Nat} (t : Str) (h : findAux pat s i = some j) :
    findAux pat (s ++ t) i = some j := by
  induction s generalizing i with
  | nil =>
    simp only [findAux] at h
    split at h
    · rename_i hp
      have hp2 : pat = [] := by
        have := ((isPrefixOf_iff _ _).1 hp).length_le
        exact List.length_eq_zero.1 (by simpa using this)
      subst hp2
      simp only [Option.some.injEq] at h
      subst h
      cases t <;> simp [findAux]
    · simp at h
  | cons c cs ih =>
    simp only [findAux] at h
    split at h
    · rename_i hp
      have hp2 : pat <+: (c :: cs) ++ t := ((isPrefixOf_iff _ _).1 hp).trans (List.prefix_append _ _)
      simp only [List.cons_append, findAux]
      rw [if_pos ((isPrefixOf_iff _ _).2 (by simpa using hp2))]
      exact h
    · rename_i hp
      have hfit := findAux_fits h
      have hn : ¬ pat <+: c :: (cs ++ t) := by
        intro hp2
        apply hp
        apply (isPrefixOf_iff _ _).2
        have h3 : c :: cs <+: c :: (cs ++ t) := by
          simp
        exact List.prefix_of_prefix_length_le hp2 h3 (by simp only [List.length_cons]; omega)
      simp only [List.cons_append, findAux]
      rw [if_neg (by rw [isPrefixOf_iff]; exact hn)]
      exact ih h

theorem find_zero (s pat : Str) : find s pat 0 = findAux pat s 0 := by
  simp [find]

theorem find_append {s pat : Str} {pos j : Nat} (t : Str) (h : find s pat pos = some j) :
    find (s ++ t) pat pos = some j := by
  unfold find at h ⊢
  split at h
  · rename_i hle
    rw [if_pos (by simp only [List.length_append]; omega), List.drop_append_of_le_length hle]
    exact findAux_append t h
  · simp at h

/-- An index found by `find_char` is an index of the string, so the
`substr(colon + 1)` of the readers cannot throw. -/
theorem find_char_lt {s : Str} {c : Char} {pos j : Nat} (h : find_char s c pos = some j) :
    j < s.length := by
  unfold find_char find at h
  split at h
  · rename_i hle
    have h1 := findAux_fits h
    have h2 := findAux_ge h
    simp only [List.length_singleton, List.length_drop] at h1
    omega
  · simp at h

/-! ## Reading what the controller wrote -/

theorem scan_head_true (r : Str) :
    AntivirusController.is_enabled_content (head_true ++ r) = true
      ∧ Daemon.parse_enabled (head_true ++ r) = some true := by
  have h1 : find (head_true ++ r) "\"enabled\"".toList 0 = some 4 :=
    find_append r (by decide)
  have h2 : find_char (head_true ++ r) ':' 4 = some 13 :=
    find_append r (by decide)
  have h3 : (head_true ++ r).drop (13 + 1) = " true".toList ++ r := rfl
  have h4 : find (" true".toList ++ r) "true".toList 0 = some 1 :=
    find_append r (by decide)
  have h5 : find (" true".toList ++ r) "false".toList 0
      = findAux "false".toList ("rue".toList ++ r) 2 := by
    rw [find_zero]; rfl
  unfold AntivirusController.is_enabled_content Daemon.parse_enabled
  simp only [h1, h2, h3, h4, h5]
  cases hf : findAux "false".toList ("rue".toList ++ r) 2 with
  | none => simp [pos_lt]
  | some f =>
    have := findAux_ge hf
    have h6 : 1 < f := by omega
    simp [pos_lt, h6]

theorem scan_head_false (r : Str) :
    AntivirusController.is_enabled_content (head_false ++ r) = false
      ∧ Daemon.parse_enabled (head_false ++ r) = some false := by
  have h1 : find (head_false ++ r) "\"enabled\"".toList 0 = some 4 :=
    find_append r (by decide)
  have h2 : find_char (head_false ++ r) ':' 4 = some 13 :=
    find_append r (by decide)
  have h3 : (head_false ++ r).drop (13 + 1) = " false".toList ++ r := rfl
  have h4 : find (" false".toList ++ r) "false".toList 0 = some 1 :=
    find_append r (by decide)
  have h5 : find (" false".toList ++ r) "true".toList 0
      = findAux "true".toList ("false".toList ++ r) 1 := by
    rw [find_zero]; rfl
  unfold AntivirusController.is_enabled_content Daemon.parse_enabled
  simp only [h1, h2, h3, h4, h5]
  cases ht : findAux "true".toList ("false".toList ++ r) 1 with
  | none => simp [pos_lt]
  | some t =>
    have := findAux_ge ht
    have h6 : ¬ t < 1 := by omega
    simp [pos_lt, h6]

theorem enable_head (ts n : Str) :
    ∃ r, AntivirusController.enable ts n = head_true ++ r :=
  ⟨_, by simp [AntivirusController.enable, head_true]; rfl⟩

theorem disable_head (ts n : Str) :
    ∃ r, AntivirusController.disable ts n = head_false ++ r :=
  ⟨_, by simp [AntivirusController.disable, head_false]; rfl⟩

theorem is_enabled_of_content (c : Str) :
    AntivirusController.is_enabled (.content c)
      = .ok (AntivirusController.is_enabled_content c) :=
  rfl

/-- C1. Whatever the notes `n` and the timestamp `ts`, the file written by
`AntivirusController::enable(n)` reads back as enabled and the one written by
`AntivirusController::disable(n)` reads back as disabled, through
`AntivirusController::is_enabled` and through the daemon's `parse_enabled`. -/
theorem C1_flag_round_trip (ts n : Str) :
    AntivirusController.is_enabled (.content (AntivirusController.enable ts n)) = .ok true
      ∧ Daemon.parse_enabled (AntivirusController.enable ts n) = some true
      ∧ AntivirusController.is_enabled (.content (AntivirusController.disable ts n)) = .ok false
      ∧ Daemon.parse_enabled (AntivirusController.disable ts n) = some false := by
  obtain ⟨r, hr⟩ := enable_head ts n
  obtain ⟨q, hq⟩ := disable_head ts n
  simp only [is_enabled_of_content, hr, hq]
  exact ⟨congrArg Except.ok (scan_head_true r).1, (scan_head_true r).2,
    congrArg Except.ok (scan_head_false q).1, (scan_head_false q).2⟩

/-! ## Reading a file that is still being written -/

theorem scan_head_false_take :
    ∀ k, k < 21 →
      AntivirusController.is_enabled_content (head_false.take k) = false
        ∧ Daemon.parse_enabled (head_false.take k) ≠ some true := by
  decide

theorem scan_of_le_head_false {p : Str} (r : Str) (hp : p <+: head_false ++ r) :
    AntivirusController.is_enabled_content p = false ∧ Daemon.parse_enabled p ≠ some true := by
  rcases Nat.lt_or_ge p.length 21 with hlt | hge
  · have h1 : p <+: head_false :=
      List.prefix_of_prefix_length_le hp (List.prefix_append _ _)
        (by have : head_false.length = 20 := rfl
            omega)
    rw [List.prefix_iff_eq_take.1 h1]
    exact scan_head_false_take _ hlt
  · have h1 : head_false <+: p :=
      List.prefix_of_prefix_length_le (List.prefix_append _ _) hp
        (by have : head_false.length = 20 := rfl
            omega)
    obtain ⟨t, rfl⟩ := h1
    have := scan_head_false t
    exact ⟨this.1, by simp [this.2]⟩

theorem poll_enabled_content (p : Str) :
    Daemon.poll_enabled (.content p) = .ok (Daemon.parse_enabled p == some true) := by
  unfold Daemon.poll_enabled
  simp only [FileState.exists_, Daemon.read_file, FileState.ifstream, if_true]
  cases Daemon.parse_enabled p with
  | none => rfl
  | some b => cases b <;> rfl

/-- C10. Every prefix `p` (the empty one and the whole file included) of the
bytes written by `AntivirusController::disable(n)` reads as not enabled: the
daemon's `parse_enabled` does not yield enabled on it, its poll leaves
`enabled` false, and `AntivirusController::is_enabled` returns false. Put the
other way round, a prefix of a file written by `enable` or `disable` that
reads as enabled comes from an `enable`. -/
theorem C10_prefix_of_disable_never_enabled (ts n p : Str) (wrote_enable : Bool)
    (hp : p <+: (if wrote_enable then AntivirusController.enable ts n
                  else AntivirusController.disable ts n)) :
    (wrote_enable = false →
        Daemon.parse_enabled p ≠ some true
          ∧ Daemon.poll_enabled (.content p) = .ok false
          ∧ AntivirusController.is_enabled (.content p) = .ok false)
      ∧ (Daemon.parse_enabled p = some true ∨ Daemon.poll_enabled (.content p) = .ok true
            ∨ AntivirusController.is_enabled (.content p) = .ok true →
          wrote_enable = true) := by
  have key : wrote_enable = false →
      Daemon.parse_enabled p ≠ some true
        ∧ Daemon.poll_enabled (.content p) = .ok false
        ∧ AntivirusController.is_enabled (.content p) = .ok false := by
    intro hb
    subst hb
    obtain ⟨r, hr⟩ := disable_head ts n
    simp only [Bool.false_eq_true, if_false, hr] at hp
    have h := scan_of_le_head_false r hp
    refine ⟨h.2, ?_, ?_⟩
    · rw [poll_enabled_content]
      exact congrArg Except.ok (by simpa using h.2)
    · rw [is_enabled_of_content, h.1]
  refine ⟨key, ?_⟩
  intro h
  cases wrote_enable with
  | true => rfl
  | false =>
    obtain ⟨h1, h2, h3⟩ := key rfl
    rcases h with h | h | h
    · exact absurd h h1
    · rw [h2] at h; cases h
    · rw [h3] at h; cases h

/-- A `disable` cut in the middle of `last_changed`, with notes `true`, reads
as not enabled. -/
theorem C10_prefix_of_disable_never_enabled_witness :
    "\x7b\n  \"enabled\": false,\n  \"last_ch".toList
        <+: AntivirusController.disable "2025-01-01T00:00:00Z".toList "true".toList
      ∧ Daemon.parse_enabled "\x7b\n  \"enabled\": false,\n  \"last_ch".toList ≠ some true
      ∧ Daemon.poll_enabled (.content "\x7b\n  \"enabled\": false,\n  \"last_ch".toList)
          = .ok false
      ∧ AntivirusController.is_enabled
          (.content "\x7b\n  \"enabled\": false,\n  \"last_ch".toList) = .ok false :=
  ⟨by decide,
   (C10_prefix_of_disable_never_enabled "2025-01-01T00:00:00Z".toList "true".toList
      "\x7b\n  \"enabled\": false,\n  \"last_ch".toList false (by decide)).1 rfl⟩

/-! ## The two writers -/

theorem controller_eq_write_config_iff (b : Bool) (ts n : Str) :
    (if b then AntivirusController.enable ts n else AntivirusController.disable ts n)
        = Control.write_config b ts n
      ↔ Control.esc_notes n = n := by
  have e1 : (if b then AntivirusController.enable ts n else AntivirusController.disable ts n)
      = (cfg_head b ++ ts ++ "\",\n  \"notes\": \"".toList) ++ (n ++ "\"\n\x7d\n".toList) := by
    cases b <;> simp [AntivirusController.enable, AntivirusController.disable, cfg_head]
  have e2 : Control.write_config b ts n
      = (cfg_head b ++ ts ++ "\",\n  \"notes\": \"".toList)
          ++ (Control.esc_notes n ++ "\"\n\x7d\n".toList) := by
    cases b <;> simp [Control.write_config, cfg_head]
  rw [e1, e2, List.append_right_inj, List.append_left_inj]
  exact eq_comm

set_option maxRecDepth 100000 in
/-- C3 (failing input). For the notes `say "hi"` the controller writes the
quotes as they are, so its file differs from the documented format, the one
`write_config` of the archived tool produces by escaping them; likewise for
a backslash. The two writers agree exactly on the notes that need no
escaping. -/
theorem C3_controller_writes_notes_unescaped (b : Bool) (ts n : Str) :
    AntivirusController.enable "2025-01-01T00:00:00Z".toList "say \"hi\"".toList
        = ("\x7b\n  \"enabled\": true,\n  \"last_changed\": \"2025-01-01T00:00:00Z\",\n"
            ++ "  \"notes\": \"say \"hi\"\"\n\x7d\n").toList
      ∧ Control.write_config true "2025-01-01T00:00:00Z".toList "say \"hi\"".toList
        = ("\x7b\n  \"enabled\": true,\n  \"last_changed\": \"2025-01-01T00:00:00Z\",\n"
            ++ "  \"notes\": \"say \\\"hi\\\"\"\n\x7d\n").toList
      ∧ AntivirusController.enable "2025-01-01T00:00:00Z".toList "say \"hi\"".toList
        ≠ Control.write_config true "2025-01-01T00:00:00Z".toList "say \"hi\"".toList
      ∧ AntivirusController.disable "2025-01-01T00:00:00Z".toList "a\\b".toList
        ≠ Control.write_config false "2025-01-01T00:00:00Z".toList "a\\b".toList
      ∧ ((if b then AntivirusController.enable ts n else AntivirusController.disable ts n)
            = Control.write_config b ts n
          ↔ Control.esc_notes n = n) := by
  refine ⟨by decide, by decide, by decide, by decide, controller_eq_write_config_iff b ts n⟩

/-- C4 (counterexample). For the notes `a"b` the tolerant reader stops at the
quote that `write_config` escaped: it yields `a\`, not `esc(n) = a\"b`. -/
theorem C4_counterexample :
    Control.extract_field
        (Control.write_config true "2025-01-01T00:00:00Z".toList "a\"b".toList) "notes".toList
        = some "a\\".toList
      ∧ Control.extract_field
          (Control.write_config true "2025-01-01T00:00:00Z".toList "a\"b".toList) "notes".toList
        ≠ some (Control.esc_notes "a\"b".toList) := by
  decide

/-! ## The tolerant reader on what `write_config` wrote -/

theorem findAux_shift (pat s : Str) (i k : Nat) :
    findAux pat s (i + k) = (findAux pat s i).map (· + k) := by
  induction s generalizing i with
  | nil => simp only [findAux]; split <;> simp
  | cons c cs ih =>
    simp only [findAux]
    split
    · simp
    · rw [show i + k + 1 = (i + 1) + k by omega, ih]

theorem find_offset (u v pat : Str) (k : Nat) :
    find (u ++ v) pat (u.length + k) = (find v pat k).map (· + u.length) := by
  unfold find
  by_cases hk : k ≤ v.length
  · rw [if_pos (by simp only [List.length_append]; omega), if_pos hk, List.drop_append,
      Nat.add_comm u.length k, findAux_shift]
  · rw [if_neg (by simp only [List.length_append]; omega), if_neg hk]
    rfl

theorem findAux_skip_head (q : Char) (rest u s : Str) (i : Nat) (h : ∀ c ∈ u, c ≠ q) :
    findAux (q :: rest) (u ++ s) i = findAux (q :: rest) s (i + u.length) := by
  induction u generalizing i with
  | nil => rfl
  | cons c cs ih =>
    have hc : c ≠ q := h c (List.mem_cons_self _ _)
    have hc2 : (q == c) = false := by simpa using fun e => hc e.symm
    have step : findAux (q :: rest) (c :: (cs ++ s)) i = findAux (q :: rest) (cs ++ s) (i + 1) := by
      simp only [findAux, List.isPrefixOf, hc2, Bool.false_and, Bool.false_eq_true, if_false]
    rw [List.cons_append, step, ih (i + 1) (fun x hx => h x (List.mem_cons_of_mem _ hx))]
    simp only [List.length_cons]
    congr 1
    omega

theorem findAux_char_takeWhile (q : Char) (e t : Str) (i : Nat) :
    findAux [q] (e ++ q :: t) i = some (i + (e.takeWhile (· ≠ q)).length) := by
  induction e generalizing i with
  | nil => simp [findAux, List.isPrefixOf]
  | cons c cs ih =>
    by_cases hc : c = q
    · subst hc
      simp [findAux, List.isPrefixOf, List.takeWhile]
    · have hc2 : (q == c) = false := by simpa using fun e => hc e.symm
      have step : findAux [q] (c :: (cs ++ q :: t)) i = findAux [q] (cs ++ q :: t) (i + 1) := by
        simp only [findAux, List.isPrefixOf, hc2, Bool.false_and, Bool.false_eq_true, if_false]
      have htw : (c :: cs).takeWhile (· ≠ q) = c :: cs.takeWhile (· ≠ q) := by
        simp [List.takeWhile, hc]
      rw [List.cons_append, step, ih, htw]
      simp only [List.length_cons]
      congr 1
      omega

theorem take_takeWhile_append (p : Char → Bool) (e t : Str) :
    (e ++ t).take (e.takeWhile p).length = e.takeWhile p := by
  induction e with
  | nil => simp
  | cons c cs ih =>
    by_cases hc : p c = true
    · simp [List.takeWhile, hc, ih]
    · simp [List.takeWhile, hc]

theorem iso_z_char_ne {c : Char} (h : iso_z_char c = true) : c ≠ '"' ∧ c ≠ 'n' := by
  constructor <;> (intro e; subst e; revert h; decide)

theorem write_config_split (b : Bool) (ts n : Str) :
    Control.write_config b ts n
      = (cfg_head b ++ ts ++ "\",\n  ".toList)
          ++ ("\"notes\": \"".toList ++ (Control.esc_notes n ++ "\"\n\x7d\n".toList)) := by
  cases b <;> simp [Control.write_config, cfg_head]

theorem findAux_cfg_head (b : Bool) (x : Str) :
    findAux notes_key (cfg_head b ++ x) 0
      = findAux notes_key ('"' :: x) ((cfg_head b).length - 1) := by
  cases b <;> rfl

theorem findAux_after_open_quote (ts y : Str) (i : Nat)
    (hts : ∀ c ∈ ts, iso_z_char c = true) :
    findAux notes_key ('"' :: (ts ++ ('"' :: y))) i
      = findAux notes_key (ts ++ ('"' :: y)) (i + 1) := by
  cases ts with
  | nil => rfl
  | cons c cs =>
    have hc : ('n' == c) = false := by
      simpa using fun e => (iso_z_char_ne (hts c (List.mem_cons_self _ _))).2 e.symm
    simp only [findAux, notes_key, List.cons_append, List.isPrefixOf, hc, Bool.false_and,
      Bool.and_false, Bool.false_eq_true, if_false]

theorem find_notes_key (b : Bool) (ts r : Str) (hts : ∀ c ∈ ts, iso_z_char c = true) :
    find ((cfg_head b ++ ts ++ "\",\n  ".toList) ++ ("\"notes\": \"".toList ++ r)) notes_key 0
      = some (cfg_head b ++ ts ++ "\",\n  ".toList).length := by
  have e1 : (cfg_head b ++ ts ++ "\",\n  ".toList) ++ ("\"notes\": \"".toList ++ r)
      = cfg_head b ++ (ts ++ ('"' :: (",\n  \"notes\": \"".toList ++ r))) := by
    simp only [List.append_assoc]
    rfl
  have e2 : ∀ i, findAux notes_key ('"' :: (",\n  \"notes\": \"".toList ++ r)) i = some (i + 5) := by
    intro i
    have := findAux_shift notes_key ('"' :: (",\n  \"notes\": \"".toList ++ r)) 0 i
    rw [Nat.zero_add] at this
    rw [this, show ('"' :: (",\n  \"notes\": \"".toList ++ r))
        = "\",\n  \"notes\": \"".toList ++ r from rfl,
      findAux_append r (show findAux notes_key "\",\n  \"notes\": \"".toList 0 = some 5 by decide)]
    simp [Nat.add_comm]
  have hlen : 1 ≤ (cfg_head b).length := by cases b <;> decide
  rw [find_zero, e1, findAux_cfg_head, findAux_after_open_quote _ _ _ hts]
  rw [show notes_key = '"' :: ("notes".toList ++ ['"']) from rfl,
    findAux_skip_head '"' _ ts _ _ (fun c hc => (iso_z_char_ne (hts c hc)).1)]
  rw [show ('"' :: ("notes".toList ++ ['"'])) = notes_key from rfl, e2]
  simp only [List.length_append]
  have : "\",\n  ".toList.length = 5 := rfl
  rw [this]
  congr 1
  omega

theorem esc_notes_no_quote {n : Str} (h : '"' ∉ n) : ∀ c ∈ Control.esc_notes n, c ≠ '"' := by
  induction n with
  | nil => simp [Control.esc_notes]
  | cons a as ih =>
    have ha : a ≠ '"' := fun e => h (e ▸ List.mem_cons_self _ _)
    have has : '"' ∉ as := fun e => h (List.mem_cons_of_mem _ e)
    intro c hc
    simp only [Control.esc_notes, if_neg ha, List.mem_append] at hc
    rcases hc with hc | hc
    · split at hc
      · intro e
        subst e
        revert hc
        decide
      · simp only [List.mem_singleton] at hc
        exact hc ▸ ha
    · exact ih has c hc

theorem esc_notes_has_quote {n : Str} (h : '"' ∈ n) : '"' ∈ Control.esc_notes n := by
  induction n with
  | nil => simp at h
  | cons a as ih =>
    simp only [Control.esc_notes, List.mem_append]
    rcases List.mem_cons.1 h with e | e
    · left
      rw [if_pos e.symm]
      decide
    · exact Or.inr (ih e)

theorem extract_notes_eq (b : Bool) (ts n : Str) (hts : ∀ c ∈ ts, iso_z_char c = true) :
    Control.extract_field (Control.write_config b ts n) "notes".toList
      = some ((Control.esc_notes n).takeWhile (· ≠ '"')) := by
  have hkey : ('"' :: "notes".toList ++ ['"']) = notes_key := rfl
  have hr : Control.esc_notes n ++ "\"\n\x7d\n".toList
      = Control.esc_notes n ++ '"' :: "\n\x7d\n".toList := rfl
  have h1 := find_notes_key b ts (Control.esc_notes n ++ "\"\n\x7d\n".toList) hts
  have h2 := find_offset (cfg_head b ++ ts ++ "\",\n  ".toList)
    ("\"notes\": \"".toList ++ (Control.esc_notes n ++ "\"\n\x7d\n".toList)) [':'] 0
  rw [find_append _ (show find "\"notes\": \"".toList [':'] 0 = some 7 by decide)] at h2
  have h3 := find_offset (cfg_head b ++ ts ++ "\",\n  ".toList)
    ("\"notes\": \"".toList ++ (Control.esc_notes n ++ "\"\n\x7d\n".toList)) ['"'] 7
  rw [find_append _ (show find "\"notes\": \"".toList ['"'] 7 = some 9 by decide)] at h3
  have h4 := find_offset (cfg_head b ++ ts ++ "\",\n  ".toList)
    ("\"notes\": \"".toList ++ (Control.esc_notes n ++ "\"\n\x7d\n".toList)) ['"'] 10
  have h5 := find_offset "\"notes\": \"".toList
    (Control.esc_notes n ++ "\"\n\x7d\n".toList) ['"'] 0
  rw [show "\"notes\": \"".toList.length + 0 = 10 from rfl, find_zero, hr,
    findAux_char_takeWhile] at h5
  rw [← hr] at h5
  rw [h5] at h4
  simp only [Option.map_some', Nat.add_zero, Nat.zero_add] at h2 h3 h4
  unfold Control.extract_field
  rw [hkey, write_config_split]
  simp only [find_char, h1, h2]
  rw [Nat.add_comm 7, h3]
  simp only []
  rw [show 9 + (cfg_head b ++ ts ++ "\",\n  ".toList).length + 1
      = (cfg_head b ++ ts ++ "\",\n  ".toList).length + 10 by omega, h4]
  simp only [substr_n]
  rw [List.drop_append,
    show ("\"notes\": \"".toList ++ (Control.esc_notes n ++ "\"\n\x7d\n".toList)).drop 10
      = Control.esc_notes n ++ "\"\n\x7d\n".toList from rfl,
    show "\"notes\": \"".toList.length = 10 from rfl,
    show (List.takeWhile (fun x => decide (x ≠ '"')) (Control.esc_notes n)).length + 10
        + (cfg_head b ++ ts ++ "\",\n  ".toList).length
        - (9 + (cfg_head b ++ ts ++ "\",\n  ".toList).length) - 1
      = (List.takeWhile (fun x => decide (x ≠ '"')) (Control.esc_notes n)).length by omega,
    take_takeWhile_append]

/-- C4 (amended). For every notes string `n`, either value of the flag and
every timestamp over the alphabet of `now_iso_z()`, `extract_field(content,
"notes")` succeeds on the content written by `write_config` and yields the
part of `esc(n)` that comes before its first `"`: all of `esc(n)` when `n`
has no `"`, and a proper part of it when `n` has one. -/
theorem C4_extract_notes_up_to_quote (b : Bool) (ts n : Str)
    (hts : ∀ c ∈ ts, iso_z_char c = true) :
    Control.extract_field (Control.write_config b ts n) "notes".toList
        = some ((Control.esc_notes n).takeWhile (· ≠ '"'))
      ∧ ('"' ∉ n →
          Control.extract_field (Control.write_config b ts n) "notes".toList
            = some (Control.esc_notes n))
      ∧ ('"' ∈ n →
          Control.extract_field (Control.write_config b ts n) "notes".toList
            ≠ some (Control.esc_notes n)) := by
  have h := extract_notes_eq b ts n hts
  refine ⟨h, ?_, ?_⟩
  · intro hn
    rw [h, List.takeWhile_eq_self_iff.2]
    intro c hc
    simpa using esc_notes_no_quote hn c hc
  · intro hn e
    rw [h, Option.some.injEq, List.takeWhile_eq_self_iff] at e
    have := e _ (esc_notes_has_quote hn)
    simp at this

/-- The notes `C:\tmp`, which have no quote, come back as `C:\\tmp`. -/
theorem C4_extract_notes_up_to_quote_witness :
    (∀ c ∈ "2025-01-01T00:00:00Z".toList, iso_z_char c = true)
      ∧ Control.extract_field
          (Control.write_config true "2025-01-01T00:00:00Z".toList "C:\\tmp".toList)
          "notes".toList
        = some "C:\\\\tmp".toList :=
  ⟨by decide,
   (C4_extract_notes_up_to_quote true "2025-01-01T00:00:00Z".toList "C:\\tmp".toList
      (by decide)).2.1 (by decide)⟩


/-! ## `find` against substrings and first occurrences -/

theorem Daemon.iteration_of_true (st : Daemon.Settings) (last : Bool) (p : Daemon.Poll)
    (h : Daemon.poll_enabled p.cfg = .ok true) :
    Daemon.iteration st last p
      = .ok ([.log .running, .system (Daemon.inference_cmd st), .log (.exit_code p.ret),
          .wait_slices st.interval.toNat], true) := by
  simp only [Daemon.iteration, h, if_true]

theorem Daemon.iteration_of_false (st : Daemon.Settings) (last : Bool) (p : Daemon.Poll)
    (h : Daemon.poll_enabled p.cfg = .ok false) :
    Daemon.iteration st last p
      = .ok ((if last then [Daemon.Event.log .idle] else []) ++ [.wait_slices 2], false) := by
  simp only [Daemon.iteration, h]
  cases last <;> rfl

theorem Daemon.iteration_of_error (st : Daemon.Settings) (last : Bool) (p : Daemon.Poll)
    (e : Exc) (h : Daemon.poll_enabled p.cfg = .error e) :
    Daemon.iteration st last p = .error e := by
  simp only [Daemon.iteration, h]

namespace Daemon

theorem iterations_cons_ok (st : Settings) (last : Bool) (p : Poll) (ps : List Poll)
    (evs : List Event) (en : Bool) (h : iteration st last p = .ok (evs, en)) :
    iterations st last (p :: ps)
      = (evs :: (iterations st en ps).1, (iterations st en ps).2) := by
  simp only [iterations, h]

theorem iterations_cons_error (st : Settings) (last : Bool) (p : Poll) (ps : List Poll)
    (e : Exc) (h : iteration st last p = .error e) :
    iterations st last (p :: ps) = ([], some e) := by
  simp only [iterations, h]

theorem poll_cases (cfg : FileState) :
    (∃ e, poll_enabled cfg = .error e) ∨ poll_enabled cfg = .ok true
      ∨ poll_enabled cfg = .ok false := by
  cases poll_enabled cfg with
  | error e => exact Or.inl ⟨e, rfl⟩
  | ok b => cases b <;> simp

theorem iterations_length_le (st : Settings) (last : Bool) (polls : List Poll) :
    (iterations st last polls).1.length ≤ polls.length := by
  induction polls generalizing last with
  | nil => simp [iterations]
  | cons p ps ih =>
    rcases poll_cases p.cfg with ⟨e, h⟩ | h | h
    · rw [iterations_cons_error st last p ps e (iteration_of_error st last p e h)]
      simp
    · rw [iterations_cons_ok st last p ps _ _ (iteration_of_true st last p h)]
      simpa using ih true
    · rw [iterations_cons_ok st last p ps _ _ (iteration_of_false st last p h)]
      simpa using ih false

theorem iterations_length (st : Settings) (last : Bool) (polls : List Poll)
    (hok : ∀ p ∈ polls, ∃ b, poll_enabled p.cfg = .ok b) :
    (iterations st last polls).1.length = polls.length
      ∧ (iterations st last polls).2 = none := by
  induction polls generalizing last with
  | nil => simp [iterations]
  | cons p ps ih =>
    have hps : ∀ q ∈ ps, ∃ b, poll_enabled q.cfg = .ok b :=
      fun q hq => hok q (List.mem_cons_of_mem _ hq)
    obtain ⟨b, hb⟩ := hok p (List.mem_cons_self _ _)
    cases b with
    | true =>
      rw [iterations_cons_ok st last p ps _ _ (iteration_of_true st last p hb)]
      simpa using ih true hps
    | false =>
      rw [iterations_cons_ok st last p ps _ _ (iteration_of_false st last p hb)]
      simpa using ih false hps

theorem idle_mem_iterations (st : Settings) (last : Bool) (polls : List Poll) (i : Nat)
    (evs : List Event) (h : (iterations st last polls).1[i]? = some evs) :
    Event.log .idle ∈ evs ↔
      (reads polls)[i]? = some (.ok false)
        ∧ ((i = 0 ∧ last = true) ∨ ∃ j, i = j + 1 ∧ (reads polls)[j]? = some (.ok true)) := by
  induction polls generalizing last i with
  | nil => simp [iterations] at h
  | cons p ps ih =>
    rcases poll_cases p.cfg with ⟨e, hp⟩ | hp | hp
    · rw [iterations_cons_error st last p ps e (iteration_of_error st last p e hp)] at h
      simp at h
    · rw [iterations_cons_ok st last p ps _ _ (iteration_of_true st last p hp)] at h
      cases i with
      | zero =>
        simp only [List.getElem?_cons_zero, Option.some.injEq] at h
        subst h
        simp [reads, hp]
      | succ k =>
        simp only [List.getElem?_cons_succ] at h
        rw [ih _ _ h]
        cases k with
        | zero => simp [reads, hp]
        | succ j => simp [reads]
    · rw [iterations_cons_ok st last p ps _ _ (iteration_of_false st last p hp)] at h
      cases i with
      | zero =>
        simp only [List.getElem?_cons_zero, Option.some.injEq] at h
        subst h
        cases last <;> simp [reads, hp]
      | succ k =>
        simp only [List.getElem?_cons_succ] at h
        rw [ih _ _ h]
        cases k with
        | zero => simp [reads, hp]
        | succ j => simp [reads]

theorem idle_separated_cons {e : Event} {l : List Event} (he : e ≠ .log .idle)
    (h : idle_separated l) : idle_separated (e :: l) := by
  intro a b c hl
  cases a with
  | nil => simp only [List.nil_append, List.cons.injEq] at hl; exact absurd hl.1 he
  | cons x xs =>
    simp only [List.cons_append, List.cons.injEq] at hl
    exact h xs b c hl.2

theorem idle_preceded_cons {e : Event} {l : List Event} (he : e ≠ .log .idle)
    (h : idle_preceded l) : idle_preceded (e :: l) := by
  intro a c hl
  cases a with
  | nil => simp only [List.nil_append, List.cons.injEq] at hl; exact absurd hl.1 he
  | cons x xs =>
    simp only [List.cons_append, List.cons.injEq] at hl
    exact List.mem_cons_of_mem _ (h xs c hl.2)

theorem idle_preceded_running (l : List Event) : idle_preceded (Event.log .running :: l) := by
  intro a c hl
  cases a with
  | nil => simp at hl
  | cons x xs =>
    simp only [List.cons_append, List.cons.injEq] at hl
    rw [← hl.1]
    exact List.mem_cons_self _ _

theorem idle_separated_idle {l : List Event} (hq : idle_preceded l) (hp : idle_separated l) :
    idle_separated (Event.log .idle :: l) := by
  intro a b c hl
  cases a with
  | nil =>
    simp only [List.nil_append, List.cons.injEq, true_and] at hl
    exact hq b c hl
  | cons x xs =>
    simp only [List.cons_append, List.cons.injEq] at hl
    exact hp xs b c hl.2

theorem loop_cons_ok (st : Settings) (last : Bool) (p : Poll) (ps : List Poll)
    (evs : List Event) (en : Bool) (h : iteration st last p = .ok (evs, en)) :
    loop st last (p :: ps) = (evs ++ (loop st en ps).1, (loop st en ps).2) := by
  simp [loop, iterations_cons_ok st last p ps evs en h]

theorem loop_cons_error (st : Settings) (last : Bool) (p : Poll) (ps : List Poll)
    (e : Exc) (h : iteration st last p = .error e) :
    loop st last (p :: ps) = ([], some e) := by
  simp [loop, iterations_cons_error st last p ps e h]

theorem idle_separated_nil : idle_separated [] := by
  intro a b c hl
  simp at hl

theorem idle_preceded_nil : idle_preceded [] := by
  intro a c hl
  simp at hl

theorem loop_idle_lines (st : Settings) (last : Bool) (polls : List Poll) :
    idle_separated (loop st last polls).1
      ∧ (last = false → idle_preceded (loop st last polls).1) := by
  induction polls generalizing last with
  | nil => exact ⟨idle_separated_nil, fun _ => idle_preceded_nil⟩
  | cons p ps ih =>
    rcases poll_cases p.cfg with ⟨e, hp⟩ | hp | hp
    · rw [loop_cons_error st last p ps e (iteration_of_error st last p e hp)]
      exact ⟨idle_separated_nil, fun _ => idle_preceded_nil⟩
    · rw [loop_cons_ok st last p ps _ _ (iteration_of_true st last p hp)]
      have h := (ih true).1
      simp only [List.cons_append, List.nil_append]
      refine ⟨?_, fun _ => idle_preceded_running _⟩
      exact idle_separated_cons (by simp) (idle_separated_cons (by simp)
        (idle_separated_cons (by simp) (idle_separated_cons (by simp) h)))
    · rw [loop_cons_ok st last p ps _ _ (iteration_of_false st last p hp)]
      have h := ih false
      cases last with
      | true =>
        simp only [if_true, List.cons_append, List.nil_append]
        refine ⟨?_, fun hl => by cases hl⟩
        exact idle_separated_idle (idle_preceded_cons (by simp) (h.2 rfl))
          (idle_separated_cons (by simp) h.1)
      | false =>
        simp only [Bool.false_eq_true, if_false, List.cons_append, List.nil_append]
        exact ⟨idle_separated_cons (by simp) h.1, fun _ => idle_preceded_cons (by simp) (h.2 rfl)⟩

theorem loop_all_disabled (st : Settings) (polls : List Poll)
    (h : ∀ p ∈ polls, poll_enabled p.cfg = .ok false) :
    loop st false polls = (List.replicate polls.length (Event.wait_slices 2), none) := by
  induction polls with
  | nil => rfl
  | cons p ps ih =>
    have hp := h p (List.mem_cons_self _ _)
    rw [loop_cons_ok st false p ps _ _ (iteration_of_false st false p hp),
      ih (fun q hq => h q (List.mem_cons_of_mem _ hq))]
    simp [List.replicate_succ]

end Daemon

/-- C5. In a run of the daemon loop over any finite sequence of polls and
inference exit codes, the pass number `i` writes `[daemon] disabled -> idle`
exactly when it reads disabled and the pass before it read enabled. So
between two such lines of the log there is a `[daemon] enabled -> running
inference` line, and a run whose reads are all disabled logs the idle line at
most once and logs no inference at all. Every poll that reads enabled or
disabled makes a pass; a poll that throws ends the passes. -/
theorem C5_idle_line_is_edge_triggered (st : Daemon.Settings) (polls : List Daemon.Poll) :
    (Daemon.iterations st false polls).1.length ≤ polls.length
      ∧ ((∀ p ∈ polls, ∃ b, Daemon.poll_enabled p.cfg = .ok b) →
          (Daemon.iterations st false polls).1.length = polls.length
            ∧ (Daemon.loop st false polls).2 = none)
      ∧ (∀ i evs, (Daemon.iterations st false polls).1[i]? = some evs →
          (Daemon.Event.log .idle ∈ evs ↔
            (Daemon.reads polls)[i]? = some (.ok false)
              ∧ ∃ j, i = j + 1 ∧ (Daemon.reads polls)[j]? = some (.ok true)))
      ∧ (∀ a b c, (Daemon.loop st false polls).1
            = a ++ Daemon.Event.log .idle :: (b ++ Daemon.Event.log .idle :: c) →
          Daemon.Event.log .running ∈ b)
      ∧ ((∀ p ∈ polls, Daemon.poll_enabled p.cfg = .ok false) →
          (Daemon.loop st false polls).1.count (Daemon.Event.log .idle) ≤ 1
            ∧ ∀ e ∈ (Daemon.loop st false polls).1,
                e ≠ .log .running ∧ (∀ ret, e ≠ .log (.exit_code ret))
                  ∧ ∀ cmd, e ≠ .system cmd) := by
  refine ⟨Daemon.iterations_length_le _ _ _, Daemon.iterations_length _ _ _, ?_,
    (Daemon.loop_idle_lines st false polls).1, ?_⟩
  · intro i evs h
    rw [Daemon.idle_mem_iterations st false polls i evs h]
    simp
  · intro h
    rw [Daemon.loop_all_disabled st polls h]
    constructor
    · rw [List.count_replicate]
      simp
    · intro e he
      rw [List.eq_of_mem_replicate he]
      simp

/-! ## The daemon's arguments -/

namespace Daemon

theorem parse_args_cons_cons (a v : Str) (rest : List Str) (st : Settings) :
    parse_args (a :: v :: rest) st
      = if a = "--model".toList then
          parse_args rest ⟨v, st.input, st.interval, st.log_file, st.logp⟩
        else if a = "--input".toList then
          parse_args rest ⟨st.model, v, st.interval, st.log_file, st.logp⟩
        else if a = "--interval".toList then
          match stoi v with
          | .error e => .error e
          | .ok k => parse_args rest ⟨st.model, st.input, k, st.log_file, st.logp⟩
        else if a = "--log".toList then
          parse_args rest ⟨st.model, st.input, st.interval, v, st.logp⟩
        else parse_args (v :: rest) st := by
  rw [parse_args]

theorem parse_args_log (v : Str) (st : Settings) :
    parse_args ["--log".toList, v] st = .ok ⟨st.model, st.input, st.interval, v, st.logp⟩ := by
  rw [parse_args_cons_cons, if_neg (by decide), if_neg (by decide), if_neg (by decide),
    if_pos rfl, parse_args]

theorem iterations_log_file (m i : Str) (k : Int) (lf1 lf2 lp : Str) (last : Bool)
    (polls : List Poll) :
    iterations ⟨m, i, k, lf1, lp⟩ last polls = iterations ⟨m, i, k, lf2, lp⟩ last polls := by
  induction polls generalizing last with
  | nil => rfl
  | cons p ps ih =>
    have hit : iteration ⟨m, i, k, lf1, lp⟩ last p = iteration ⟨m, i, k, lf2, lp⟩ last p := rfl
    cases h : iteration ⟨m, i, k, lf2, lp⟩ last p with
    | error e =>
      rw [iterations_cons_error _ _ _ _ e (hit.trans h), iterations_cons_error _ _ _ _ e h]
    | ok r =>
      obtain ⟨evs, en⟩ := r
      rw [iterations_cons_ok _ _ _ _ evs en (hit.trans h), iterations_cons_ok _ _ _ _ evs en h,
        ih]

theorem main_body_log_file (m i : Str) (k : Int) (lf1 lf2 lp : Str) (w : World) :
    main_body ⟨m, i, k, lf1, lp⟩ w = main_body ⟨m, i, k, lf2, lp⟩ w := by
  simp only [main_body, loop, iterations_log_file m i k lf1 lf2 lp]

end Daemon

set_option maxRecDepth 100000 in
/-- C6 (failing input). `--log <path>` only sets the local `log_file`; `logp`
was built from the default before the arguments were read, so the run is the
run without the option: with `--log out/d.log` the directory created, the
file opened and the target of the inference output are those of
`logs/antivirus_daemon.log`. -/
theorem C6_log_option_is_ignored (prog v : Str) (w : Daemon.World) :
    Daemon.main [prog, "--log".toList, v] w = Daemon.main [prog] w
      ∧ Daemon.main ["antivirus_daemon".toList, "--log".toList, "out/d.log".toList]
          world_one_enabled_pass
        = ⟨[.create_parent_directories "logs/antivirus_daemon.log".toList,
            .open_append "logs/antivirus_daemon.log".toList,
            .log .start,
            .log .running,
            .system ("python scripts/predecir_keylogger.py"
               ++ " --onnx \"backup/modelo/modelo_keylogger_from_datos.onnx\""
               ++ " --input \"DATOS/Keylogger_Detection_Dataset.csv\""
               ++ " >> \"logs/antivirus_daemon.log\" 2>&1").toList,
            .log (.exit_code 0),
            .wait_slices 10,
            .log .stopping],
           .ok 0⟩ := by
  constructor
  · unfold Daemon.main
    rw [List.tail_cons, List.tail_cons, Daemon.parse_args_log, Daemon.parse_args]
    exact Daemon.main_body_log_file _ _ _ _ _ _ w
  · decide

namespace Daemon

end Daemon

namespace ModelRunner

theorem parent_path_root (p : Path) : p.parent_path.root = p.root := by
  unfold Path.parent_path
  split <;> rfl

theorem has_parent_path_of_root {p : Path} (h : p.root = true) : p.has_parent_path = true := by
  simp [Path.has_parent_path, Path.empty, parent_path_root, h]

theorem ancestor_root (k : Nat) (p : Path) : (ancestor k p).root = p.root := by
  induction k generalizing p with
  | zero => rfl
  | succ k ih => rw [ancestor, ih, parent_path_root]

theorem walk_none_of_no_script (fs_exists : Path → Except Exc Bool) (cwd : Path)
    (hroot : cwd.root = true)
    (h : ∀ k, fs_exists (script_of (ancestor k cwd)) = .ok false) (fuel : Nat) :
    walk fs_exists fuel cwd = none := by
  induction fuel generalizing cwd with
  | zero => rfl
  | succ f ih =>
    have h0 : fs_exists (script_of cwd) = .ok false := h 0
    simp only [walk, walk_step, h0, has_parent_path_of_root hroot, Bool.false_eq_true, if_false,
      Bool.not_true]
    exact ih _ (by rw [parent_path_root, hroot]) (fun k => h (k + 1))

/-- With a script at the `k`-th ancestor and none nearer, the walk ends there. -/
theorem discover_repo_of_script (fs_exists : Path → Except Exc Bool) (cwd : Path)
    (hroot : cwd.root = true)
    (k : Nat) (hk : fs_exists (script_of (ancestor k cwd)) = .ok true)
    (hmin : ∀ j, j < k → fs_exists (script_of (ancestor j cwd)) = .ok false)
    (fuel : Nat) (hf : k < fuel) :
    discover_repo fs_exists fuel cwd = some (.ok (ancestor k cwd)) := by
  have key : ∀ (k : Nat) (cwd : Path), cwd.root = true →
      fs_exists (script_of (ancestor k cwd)) = .ok true →
      (∀ j, j < k → fs_exists (script_of (ancestor j cwd)) = .ok false) →
      ∀ fuel, k < fuel → walk fs_exists fuel cwd = some (.ok (ancestor k cwd, true)) := by
    intro k
    induction k with
    | zero =>
      intro cwd _ hk _ fuel hf
      cases fuel with
      | zero => omega
      | succ f =>
        have hk0 : fs_exists (script_of cwd) = .ok true := hk
        simp [walk, walk_step, hk0, ancestor]
    | succ k ih =>
      intro cwd hroot hk hmin fuel hf
      cases fuel with
      | zero => omega
      | succ f =>
        have h0 : fs_exists (script_of cwd) = .ok false := hmin 0 (by omega)
        simp only [walk, walk_step, h0, has_parent_path_of_root hroot, Bool.false_eq_true,
          if_false, Bool.not_true]
        exact ih _ (by rw [parent_path_root, hroot]) hk
          (fun j hj => hmin (j + 1) (by omega)) f (by omega)
  simp [discover_repo, key k cwd hroot hk hmin fuel hf]

end ModelRunner

/-- C8 (failing input). From an absolute working directory none of whose
ancestors holds `scripts/predecir_keylogger.py`, the walk of
`ModelRunner::run` never leaves its loop: `/` has a parent path, itself, so
the fall-back to the working directory is never reached. -/
theorem C8_walk_never_ends_without_script (fs_exists : ModelRunner.Path → Except Exc Bool)
    (cwd : ModelRunner.Path) (hroot : cwd.root = true)
    (h : ∀ k, fs_exists (ModelRunner.script_of (ModelRunner.ancestor k cwd)) = .ok false) :
    ∀ fuel, ModelRunner.walk fs_exists fuel cwd = none
      ∧ ModelRunner.discover_repo fs_exists fuel cwd = none := by
  intro fuel
  have := ModelRunner.walk_none_of_no_script fs_exists cwd hroot h fuel
  simp [ModelRunner.discover_repo, this]

/-- From `/home/user` on a file system without the script, no number of
passes brings the walk out of its loop. -/
theorem C8_walk_never_ends_without_script_witness :
    ¬ ∃ fuel, (ModelRunner.discover_repo (fun _ => .ok false) fuel
        ⟨true, ["home".toList, "user".toList]⟩).isSome = true :=
  fun ⟨fuel, h⟩ => by
    rw [(C8_walk_never_ends_without_script (fun _ => .ok false)
      ⟨true, ["home".toList, "user".toList]⟩ rfl (fun _ => rfl) fuel).2] at h
    cases h

/-! ## The interactive loop -/

theorem Cli.interactive_line_enable (d : Disk) (ts t : Str) (cfg : FileState) :
    Cli.interactive_line d ts cfg ("enable ".toList ++ t)
      = match AntivirusController.write_file d (AntivirusController.enable ts t) cfg with
        | .error e => .error e
        | .ok cfg2 => .ok ⟨cfg2, [.cout "enabled\n".toList], true⟩ := by
  have h : substr ("enable ".toList ++ t) 7 = .ok t := by
    simp [substr]
  have h2 : ∀ x, (match substr ("enable ".toList ++ t) 7 with
      | .error e => Except.error e
      | .ok notes =>
        match AntivirusController.write_file d (AntivirusController.enable ts notes) cfg with
        | .error e => Except.error e
        | .ok cfg2 => Except.ok (Cli.Pass.mk cfg2 [.cout "enabled\n".toList] true)) = x →
      Cli.interactive_line d ts cfg ("enable ".toList ++ t) = x := fun x hx => hx ▸ rfl
  exact h2 _ (by rw [h])

theorem Cli.interactive_line_disable (d : Disk) (ts t : Str) (cfg : FileState) :
    Cli.interactive_line d ts cfg ("disable ".toList ++ t)
      = match AntivirusController.write_file d (AntivirusController.disable ts t) cfg with
        | .error e => .error e
        | .ok cfg2 => .ok ⟨cfg2, [.cout "disabled\n".toList], true⟩ := by
  have h : substr ("disable ".toList ++ t) 8 = .ok t := by
    simp [substr]
  have h2 : ∀ x, (match substr ("disable ".toList ++ t) 8 with
      | .error e => Except.error e
      | .ok notes =>
        match AntivirusController.write_file d (AntivirusController.disable ts notes) cfg with
        | .error e => Except.error e
        | .ok cfg2 => Except.ok (Cli.Pass.mk cfg2 [.cout "disabled\n".toList] true)) = x →
      Cli.interactive_line d ts cfg ("disable ".toList ++ t) = x := fun x hx => hx ▸ rfl
  exact h2 _ (by rw [h])

/-- C9 (failing input). The line `enable` alone (and likewise `disable`)
makes `line.substr(7)` throw `std::out_of_range`: nothing is persisted,
nothing is printed and the loop reads no further line. A line `enablefoo` is
taken as `enable` with notes `oo`. A verb followed by one space and a text
`t` does write `t` as the notes, into a file that can be written. -/
theorem C9_bare_verb_throws (d : Disk) (ts t : Str) (cfg : FileState) :
    Cli.interactive_line d ts cfg "enable".toList = .error .out_of_range
      ∧ Cli.interactive_line d ts cfg "disable".toList = .error .out_of_range
      ∧ Cli.interactive d cfg [("enable".toList, ts), ("status".toList, ts)]
          = .error .out_of_range
      ∧ Cli.interactive_line disk_ok ts cfg "enablefoo".toList
          = .ok ⟨.content (AntivirusController.enable ts "oo".toList),
                 [.cout "enabled\n".toList], true⟩
      ∧ Cli.interactive_line disk_ok ts cfg ("enable ".toList ++ t)
          = .ok ⟨.content (AntivirusController.enable ts t), [.cout "enabled\n".toList], true⟩
      ∧ Cli.interactive_line disk_ok ts cfg ("disable ".toList ++ t)
          = .ok ⟨.content (AntivirusController.disable ts t), [.cout "disabled\n".toList], true⟩
      ∧ Cli.interactive_line d ts cfg ("enable ".toList ++ t)
          = (match AntivirusController.write_file d (AntivirusController.enable ts t) cfg with
            | .error e => .error e
            | .ok cfg2 => .ok ⟨cfg2, [.cout "enabled\n".toList], true⟩)
      ∧ Cli.interactive_line d ts cfg ("disable ".toList ++ t)
          = (match AntivirusController.write_file d (AntivirusController.disable ts t) cfg with
            | .error e => .error e
            | .ok cfg2 => .ok ⟨cfg2, [.cout "disabled\n".toList], true⟩)
      ∧ Cli.interactive_line disk_read_only ts cfg ("enable ".toList ++ t)
          = .ok ⟨cfg, [.cout "enabled\n".toList], true⟩ := by
  refine ⟨rfl, rfl, rfl, rfl, ?_, ?_, Cli.interactive_line_enable d ts t cfg,
    Cli.interactive_line_disable d ts t cfg, ?_⟩
  · rw [Cli.interactive_line_enable]
    rfl
  · rw [Cli.interactive_line_disable]
    rfl
  · rw [Cli.interactive_line_enable]
    rfl

end AntiKeylogger
